import Mathlib

/-!
Verification of the mediawikirag incremental index pipeline.

Shallow embedding of the Python sources:
* `src/chunker.py` : `chunk_text` and its helpers (paragraph split,
  sentence split, overlap seeding, fixed-size slicing fallback);
* `scripts/update_index.py` : change detection, incremental chunk merge,
  embedding, staging writes, integrity check and the archive/promote/rollback
  swap sequence;
* `src/storage.py` : lock acquire/release, atomic artifact writes;
* `src/retriever.py` : cosine similarity and brute-force search.

Python strings are modelled as `List Char`, ints as `Nat`/`Int`, floats as
exact rationals/reals, dicts as association lists with insert-or-update
semantics, and the filesystem effects of the swap/lock code as explicit
state-passing functions.
-/

set_option synthInstance.maxHeartbeats 1000000

namespace MediaWikiRag

/-- Str abbreviates the model of a Python string: a list of characters. -/
abbrev Str := List Char

/-- Whitespace test matching Python's `str.strip` / regex `\s` ASCII set. -/
def isSpaceChar (c : Char) : Bool :=
  c = ' ' || c = '\t' || c = '\n' || c = '\r' || c = '\x0b' || c = '\x0c'

/-- Model of Python `s.strip()`: drop whitespace from both ends. -/
def stripList (s : Str) : Str :=
  ((s.dropWhile isSpaceChar).reverse.dropWhile isSpaceChar).reverse

/-- Sentence-ending punctuation of the regex `(?<=[.!?])\s+` in
`chunker._split_sentences`. -/
def isPunctChar (c : Char) : Bool :=
  c = '.' || c = '!' || c = '?'

/-- Model of `re.split(r'\n\x7b2,\x7d', text)` (from `chunk_text`): cut at every
maximal run of two or more newlines. `acc` holds the current segment
reversed; when `skipping` is set the scanner is consuming the remainder
of a matched newline run (one character per step, so the recursion is
structural and kernel-reducible). -/
def paraSplitGo : Str → Str → Bool → List Str
  | [], acc, _ => [acc.reverse]
  | c :: rest, acc, skipping =>
    if skipping then
      if c = '\n' then paraSplitGo rest acc true
      else paraSplitGo rest [c] false
    else if c = '\n' ∧ rest.head? = some '\n' then
      acc.reverse :: paraSplitGo rest [] true
    else
      paraSplitGo rest (c :: acc) false

/-- Paragraph split used by `chunk_text`. -/
def paraSplit (t : Str) : List Str := paraSplitGo t [] false

/-- Model of `re.split(r'(?<=[.!?])\s+', text)`: cut at every maximal
whitespace run whose first character is preceded by `.`, `!` or `?`.
`acc` holds the current segment reversed, so `acc.head?` is the
look-behind character; `skipping` consumes the rest of a matched
whitespace run. -/
def sentSplitGo : Str → Str → Bool → List Str
  | [], acc, _ => [acc.reverse]
  | c :: rest, acc, skipping =>
    if skipping then
      if isSpaceChar c then sentSplitGo rest acc true
      else sentSplitGo rest [c] false
    else if isSpaceChar c ∧ (acc.head?.elim false isPunctChar) then
      acc.reverse :: sentSplitGo rest [] true
    else
      sentSplitGo rest (c :: acc) false

/-- Model of `chunker._split_sentences`: fall back to the whole text when
no sentence boundary was found. -/
def splitSentences (t : Str) : List Str :=
  let sentences := sentSplitGo t [] false
  if sentences.length ≤ 1 then [t] else sentences

/-- Zero-padded decimal rendering of the chunk index, the `idx:03d`
format used in chunk ids. -/
def pad3 (n : Nat) : Str :=
  let s := Nat.toDigits 10 n
  if s.length < 3 then List.replicate (3 - s.length) '0' ++ s else s

/-- Chunk record with the fields produced by `chunk_text`. -/
structure Chunk where
  id : Str
  text : Str
  page_title : Str
  chunk_index : Nat
  char_count : Nat
deriving Repr, DecidableEq

/-- Page record: input of `chunk_text` (`page['title']`, `page['content']`). -/
structure Page where
  title : Str
  content : Str
deriving Repr, DecidableEq

/-- Chunk constructor mirroring the dict built in `chunker._emit`. -/
def mkChunk (title : Str) (idx : Nat) (p : Str) : Chunk :=
  { id := title ++ "_chunk".data ++ pad3 idx
    text := p
    page_title := title
    chunk_index := idx
    char_count := p.length }

/-- Mutable state of the `chunk_text` loops: emitted chunks, next index,
and the accumulation buffer `current`. -/
structure CState where
  chunks : List Chunk
  idx : Nat
  current : Str
deriving Repr, DecidableEq

/-- Model of `chunker._emit`: strip the part and append a chunk unless the
stripped text is empty; `current` is untouched. -/
def emit (title : Str) (st : CState) (part : Str) : CState :=
  let p := stripList part
  if p.isEmpty then st
  else { chunks := st.chunks ++ [mkChunk title st.idx p], idx := st.idx + 1, current := st.current }

/-- Model of `current[-overlap:] if overlap and len(current) > overlap else ''`. -/
def tailOf (ov : Nat) (current : Str) : Str :=
  if ov ≠ 0 ∧ ov < current.length then current.drop (current.length - ov) else []

/-- Separator `'\n\n'` inserted between joined paragraphs. -/
def nl2 : Str := ['\n', '\n']

/-- Body of the sentence-assembly loop of `chunk_text` (the `for s in
sentences` loop). -/
def sentStep (title : Str) (cs ov : Nat) (st : CState) (s0 : Str) : CState :=
  let s := stripList s0
  if s.isEmpty then st
  else if st.current.isEmpty then { st with current := s }
  else if cs < st.current.length + 1 + s.length then
    let st' := emit title st st.current
    { st' with current := stripList (tailOf ov st.current ++ [' '] ++ s) }
  else
    { st with current := stripList (st.current ++ [' '] ++ s) }

/-- Fuelled model of the fixed-size slicing `while start < len(long_text)`
loop of `chunk_text`. The Boolean reports whether the loop condition became
false within the given fuel, i.e. whether the Python loop terminated. -/
def sliceLoop (title : Str) (cs ov : Nat) (longText : Str) :
    Nat → Nat → CState → CState × Bool
  | 0, start, st => (st, !decide (start < longText.length))
  | fuel + 1, start, st =>
    if start < longText.length then
      sliceLoop title cs ov longText fuel (start + (cs - ov))
        (emit title st ((longText.drop start).take cs))
    else
      (st, true)

/-- Body of the paragraph loop of `chunk_text` (the `for para in
paragraphs` loop), including the sentence-split and slicing fallbacks. -/
def paraStep (title : Str) (cs ov : Nat) (st : CState) (para0 : Str) : CState :=
  let para := stripList para0
  if para.isEmpty then st
  else if para.length ≤ cs then
    if st.current.isEmpty then { st with current := para }
    else if cs < st.current.length + 2 + para.length then
      let st' := emit title st st.current
      { st' with current := stripList (tailOf ov st.current ++ nl2 ++ para) }
    else
      { st with current := stripList (st.current ++ nl2 ++ para) }
  else
    let sentences := splitSentences para
    if sentences.length = 1 ∧ cs < (sentences.headD []).length then
      let st1 := if st.current.isEmpty then st
                 else { emit title st st.current with current := [] }
      let longText := sentences.headD []
      (sliceLoop title cs ov longText (longText.length + 1) 0 st1).1
    else
      sentences.foldl (sentStep title cs ov) st

/-- Model of `chunker.chunk_text(page, chunk_size, overlap)`. The slicing
loop is run with fuel `len(long_text) + 1`, which suffices whenever
`overlap < chunk_size` (see the termination theorem). -/
def chunk_text (page : Page) (cs ov : Nat) : List Chunk :=
  if page.content.isEmpty then []
  else
    let st := (paraSplit page.content).foldl (paraStep page.title cs ov) ⟨[], 0, []⟩
    (if st.current.isEmpty then st else emit page.title st st.current).chunks

/-- Size invariant of the chunker state: every emitted chunk and the
accumulation buffer stay within `B` characters. -/
def sizeInv (B : Nat) (st : CState) : Prop :=
  (∀ c ∈ st.chunks, c.char_count ≤ B) ∧ st.current.length ≤ B

/-- Well-formedness of one emitted chunk: recorded length matches the
text, the text equals its own trim, and it is non-empty. -/
def chunkWF (c : Chunk) : Prop :=
  c.char_count = c.text.length ∧ stripList c.text = c.text ∧ c.text ≠ []

/-- Index invariant of the chunker state: chunk indices are
`0, 1, ..., idx - 1` in order and every chunk is well-formed. -/
def idxInv (st : CState) : Prop :=
  st.chunks.map (fun c => c.chunk_index) = List.range st.idx ∧
  ∀ c ∈ st.chunks, chunkWF c

/-- Largest length of any sentence obtained by sentence-splitting any
(stripped) paragraph of the text; used to bound chunk sizes. -/
def maxSentLen (t : Str) : Nat :=
  ((paraSplit t).map (fun p =>
    ((splitSentences (stripList p)).map List.length).foldr max 0)).foldr max 0

/-! ### Pipeline model: `scripts/update_index.py` -/

/-- Entry of the `wiki_state.json` pages dict: the record
`\x7b"revid": ..., "timestamp": ...\x7d` written for each fetched page. -/
structure PState where
  revid : Option Nat
  timestamp : Option Nat
deriving Repr, DecidableEq

/-- Fetched page as consumed by `update_index.main` (`page['title']`,
`page.get('revid')`, `page.get('timestamp')`, content for the chunker). -/
structure FPage where
  title : Str
  revid : Option Nat
  timestamp : Option Nat
  content : Str
deriving Repr, DecidableEq

/-- Python dict lookup `d.get(k)` on an association list. -/
def dictGet {α : Type} (d : List (Str × α)) (k : Str) : Option α :=
  (d.find? (fun p => p.1 = k)).map (·.2)

/-- Python dict assignment `d[k] = v`: update in place if the key exists,
else append (insertion order preserved). -/
def dictInsert {α : Type} (d : List (Str × α)) (k : Str) (v : α) : List (Str × α) :=
  if d.any (fun p => p.1 = k) then
    d.map (fun p => if p.1 = k then (k, v) else p)
  else d ++ [(k, v)]

/-- StateDict models the `pages` dict of `wiki_state.json`. -/
abbrev StateDict := List (Str × PState)

/-- Condition `args.full_rebuild or not prev or prev.get("revid") != revid`
from the change-detection loop of `update_index.main`. -/
def pageChanged (full : Bool) (prevPages : StateDict) (p : FPage) : Bool :=
  full ||
    match dictGet prevPages p.title with
    | none => true
    | some e => decide (e.revid ≠ p.revid)

/-- One iteration of the `for page in pages` change-detection loop:
record the page in `new_state` and append it to `changed_pages` when the
change condition holds. -/
def detectStep (full : Bool) (prevPages : StateDict)
    (acc : StateDict × List FPage) (p : FPage) : StateDict × List FPage :=
  let ns := dictInsert acc.1 p.title ⟨p.revid, p.timestamp⟩
  if pageChanged full prevPages p then (ns, acc.2 ++ [p]) else (ns, acc.2)

/-- Change detection of `update_index.main`: returns
(`new_state["pages"]`, `changed_pages`). -/
def detect (full : Bool) (prevPages : StateDict) (pages : List FPage) :
    StateDict × List FPage :=
  pages.foldl (detectStep full prevPages) ([], [])

/-- Carry-over condition of the merge loop:
`title in unchanged_titles and title not in [p['title'] for p in changed_pages]`
where `unchanged_titles = set(prev_pages) & set(new_state["pages"])`. -/
def carriedOver (prevPages newPages : StateDict) (changedTitles : List Str)
    (c : Chunk) : Bool :=
  (dictGet prevPages c.page_title).isSome &&
  (dictGet newPages c.page_title).isSome &&
  !(changedTitles.contains c.page_title)

/-- One iteration of the `for chunk in prev_chunks` carry-over loop. -/
def carryStep (prevPages newPages : StateDict) (changedTitles : List Str)
    (acc : List Chunk) (c : Chunk) : List Chunk :=
  if carriedOver prevPages newPages changedTitles c then acc ++ [c] else acc

/-- Incremental chunk merge of `update_index.main`: carried-over previous
chunks (skipped entirely on full rebuild) followed by freshly chunked
changed pages in fetch order. -/
def mergeChunks (full : Bool) (prevPages newPages : StateDict)
    (prevChunks : List Chunk) (changed : List FPage) (cs ov : Nat) : List Chunk :=
  let base :=
    if full then []
    else prevChunks.foldl (carryStep prevPages newPages (changed.map (·.title))) []
  changed.foldl (fun acc p => acc ++ chunk_text ⟨p.title, p.content⟩ cs ov) base

/-- Model of `Embedder.embed_chunks`: encode the `text` field of every
chunk in the given list, in order, with the (deterministic) embedding
model `embed`. -/
def embed_chunks (embed : Str → List ℚ) (chunks : List Chunk) : List (List ℚ) :=
  (chunks.map (fun c => c.text)).map embed

/-! ### Lock manager: `Storage.acquire_lock` / `Storage.release_lock` -/

/-- Lock record written to `.update.lock` (timestamp in epoch seconds,
as produced by formatting and re-parsing `%Y-%m-%dT%H:%M:%S`). -/
structure LockInfo where
  timestamp : Int
  username : Str
  pid : Nat
  hostname : Str
deriving Repr, DecidableEq

/-- Identity of the acquiring process (`getpass.getuser()`, `os.getpid()`,
`socket.gethostname()`). -/
structure Owner where
  username : Str
  pid : Nat
  hostname : Str
deriving Repr, DecidableEq

/-- Model of `Storage.acquire_lock`: raise when a lock record exists whose
age is within `timeout`, otherwise (no record, or a stale one) write a
fresh record for the current owner. The state is the content of the lock
file, `none` when absent. -/
def acquire_lock (cur : Option LockInfo) (now : Int) (ow : Owner) (timeout : Int) :
    Except Str (Option LockInfo) :=
  match cur with
  | some info =>
    if timeout < now - info.timestamp then
      Except.ok (some ⟨now, ow.username, ow.pid, ow.hostname⟩)
    else
      Except.error ("Lock held by ".data ++ info.username)
  | none => Except.ok (some ⟨now, ow.username, ow.pid, ow.hostname⟩)

/-- Model of `Storage.release_lock`: unlink the lock file if it exists
(the source performs the existence-checked unlink twice). -/
def release_lock (cur : Option LockInfo) : Option LockInfo :=
  let cur1 := if cur.isSome then none else cur
  if cur1.isSome then none else cur1

/-! ### Swap manager: archive / promote / rollback in `update_index.main` -/

/-- State of the index root for the swap sequence: the live directory
content (if any), the staging content, and the archive as a list of
(timestamp name, content) entries. Directory contents are opaque tokens. -/
structure SwapState where
  current : Option Nat
  staging : Nat
  archive : List (Nat × Nat)
deriving Repr, DecidableEq

/-- Insertion step for sorting archive entries by name, descending
(`sorted(archive_path.iterdir(), key=..., reverse=True)`). -/
def insArchDesc (x : Nat × Nat) : List (Nat × Nat) → List (Nat × Nat)
  | [] => [x]
  | y :: ys => if y.1 ≤ x.1 then x :: y :: ys else y :: insArchDesc x ys

/-- Archive entries sorted by timestamp name, newest first. -/
def sortArchDesc (l : List (Nat × Nat)) : List (Nat × Nat) :=
  l.foldr insArchDesc []

/-- Model of the archive-prune-promote `try` block of `update_index.main`
together with its rollback `except` handler. `ts` is the timestamp name
for the new archive entry. `failPromote` injects a failure into
`copytree(staging_path, current_path)`, after archiving; `partialDir` is
whatever partial content that failed copy left behind (or `none`). -/
def promote (st : SwapState) (ts : Nat) (failPromote : Bool) (partialDir : Option Nat) :
    SwapState :=
  let st1 :=
    match st.current with
    | some c =>
      { st with current := none
                archive := (sortArchDesc ((ts, c) :: st.archive)).take 2 }
    | none => st
  if failPromote then
    match sortArchDesc st1.archive with
    | [] => { st1 with current := partialDir }
    | a :: _ => { st1 with current := some a.2 }
  else
    { st1 with current := some st1.staging }

/-! ### Staging writes and integrity check -/

/-- Primitive filesystem effects of the staging writers. -/
inductive FsOp where
  | write (path : Str)
  | rename (src dst : Str)
deriving Repr, DecidableEq

/-- Write trace of `Storage.save_chunks`: write `path + '.tmp'`, then
`Path(tmp_path).replace(path)`. -/
def save_chunks_ops (path : Str) : List FsOp :=
  [FsOp.write (path ++ ".tmp".data), FsOp.rename (path ++ ".tmp".data) path]

/-- Write trace of `Storage.save_embeddings`: `np.save` appends `.npy` to
the temp name, and the temp file is then renamed onto `path`. -/
def save_embeddings_ops (path : Str) : List FsOp :=
  [FsOp.write (path ++ ".tmp.npy".data), FsOp.rename (path ++ ".tmp.npy".data) path]

/-- Write trace of a plain `json.dump(obj, open(path, 'w'))`. -/
def json_dump_ops (path : Str) : List FsOp := [FsOp.write path]

/-- Staging artifact filenames, in the order `update_index.main` writes
them. -/
def stagingArtifacts : List Str :=
  ["chunks.jsonl".data, "embeddings.npy".data, "wiki_state.json".data,
   "metadata.json".data]

/-- Write trace of the staging phase of `update_index.main`: chunk list
and embedding matrix through the `Storage` helpers, page state and
metadata through direct `json.dump` calls. -/
def stagingWriteOps : List FsOp :=
  save_chunks_ops "chunks.jsonl".data ++
  save_embeddings_ops "embeddings.npy".data ++
  json_dump_ops "wiki_state.json".data ++
  json_dump_ops "metadata.json".data

/-- Test for a rename publishing `path` from a distinct temporary path. -/
def isRenameTo (path : Str) : FsOp → Bool
  | FsOp.rename tmp dst => decide (tmp ≠ path) && decide (dst = path)
  | _ => false

/-- Artifact published atomically in a trace: it is never the target of a
direct write, and it is put in place by renaming some other path onto it. -/
def publishedAtomically (ops : List FsOp) (path : Str) : Bool :=
  !(ops.contains (FsOp.write path)) && ops.any (isRenameTo path)

/-- Filenames checksummed by the integrity loop of `update_index.main`
(`for fname in ['chunks.jsonl', 'embeddings.npy', 'wiki_state.json']`). -/
def integrityFiles : List Str :=
  ["chunks.jsonl".data, "embeddings.npy".data, "wiki_state.json".data]

/-- Integrity map built by `update_index.main`: for each checked filename,
whether it exists and, when it does, its content checksum. `ex` is
existence on disk and `hash` the checksum function. -/
def integrityReport (ex : Str → Bool) (hash : Str → Nat) :
    List (Str × Bool × Option Nat) :=
  integrityFiles.map (fun f => (f, ex f, if ex f then some (hash f) else none))

/-- Missing-file list `[k for k, v in integrity_report.items() if not
v['exists']]`. -/
def missingFiles (ex : Str → Bool) (hash : Str → Nat) : List Str :=
  ((integrityReport ex hash).filter (fun r => !r.2.1)).map (·.1)

/-- The build proceeds to the swap iff the missing-file list is empty
(`if missing: ... return` aborts before the swap block). -/
def proceedsToSwap (ex : Str → Bool) (hash : Str → Nat) : Bool :=
  (missingFiles ex hash).isEmpty

/-! ### Retriever: `retriever.cosine_similarity` / `retriever.search_chunks` -/

/-- Dot product `np.dot` of two vectors (modelled as exact rationals). -/
def dotQ (a b : List ℚ) : ℚ := (List.zipWith (fun x y => x * y) a b).sum

/-- Sum of squares of a vector. -/
def sumSq (v : List ℚ) : ℚ := (v.map (fun x => x * x)).sum

/-- Euclidean norm `np.linalg.norm v = sqrt (sum of squares)`. -/
noncomputable def normVal (v : List ℚ) : ℝ := Real.sqrt ((sumSq v : ℚ) : ℝ)

/-- Denominator actually used by `cosine_similarity` for one row: the
product of norms, with zero replaced by `1e-12`
(`denom[denom == 0] = 1e-12`). -/
noncomputable def clampedDenom (q r : List ℚ) : ℝ :=
  let denom := normVal q * normVal r
  if denom = 0 then (1 / 10 ^ 12 : ℝ) else denom

/-- Cosine score of one row: `dot(row, query) / clamped denominator`. -/
noncomputable def cosineRow (q r : List ℚ) : ℝ :=
  ((dotQ r q : ℚ) : ℝ) / clampedDenom q r

/-- Model of `retriever.cosine_similarity`: one score per stored row. -/
noncomputable def cosine_similarity (q : List ℚ) (rows : List (List ℚ)) : List ℝ :=
  rows.map (cosineRow q)

/-- Insert an index into an index list sorted by ascending score: a new
(always larger) index goes after every index with a score less than or
equal to its own. -/
noncomputable def argInsert (scores : List ℝ) (i : Nat) : List Nat → List Nat
  | [] => [i]
  | j :: rest =>
    if scores.getD j 0 ≤ scores.getD i 0 then j :: argInsert scores i rest
    else i :: j :: rest

/-- Model of `np.argsort(scores)` up to the order of equal scores: a
permutation of `0, ..., n-1` sorted by ascending score. This insertion
sort is stable, while numpy's default `kind='quicksort'` (introsort) is
not: for arrays at or above introsort's small-array cutoff, equal scores
may come out in any order. Only score-sortedness and being a permutation
are properties of `retriever.py`; the tie order this function fixes is an
artefact of the model (it does agree with numpy on arrays short enough
for introsort's insertion-sort fallback, such as the counterexample's).
Theorems about the program must therefore not depend on this function's
tie order, and the search postcondition theorem below is stated for every
score-sorted permutation order. -/
noncomputable def argsort (scores : List ℝ) : List Nat :=
  (List.range scores.length).foldl (fun l i => argInsert scores i l) []

/-- Result-collection loop of `search_chunks`: walk the descending index
order, stop once `top_k` results are collected, keep only scores at or
above `threshold`, and skip indices with no chunk (the guarded
`chunks[int(idx)]` access). -/
noncomputable def selectLoop (scores : List ℝ) (chunks : List Chunk) (topK : Nat)
    (threshold : ℝ) : List Nat → List (Chunk × ℝ) → List (Chunk × ℝ)
  | [], res => res
  | i :: rest, res =>
    if topK ≤ res.length then res
    else
      if threshold ≤ scores.getD i 0 then
        match chunks[i]? with
        | some c =>
          selectLoop scores chunks topK threshold rest (res ++ [(c, scores.getD i 0)])
        | none => selectLoop scores chunks topK threshold rest res
      else selectLoop scores chunks topK threshold rest res

/-- Ascending order on indices maintained by `argInsert`: smaller score
first, ties broken by original (ascending) index. -/
def ordRel (scores : List ℝ) (i j : Nat) : Prop :=
  scores.getD i 0 < scores.getD j 0 ∨
    (scores.getD i 0 = scores.getD j 0 ∧ i ≤ j)

/-- Model of `retriever.search_chunks`, exact up to the order of equal
scores (see `argsort`). -/
noncomputable def search_chunks (q : List ℚ) (embs : List (List ℚ)) (chunks : List Chunk)
    (topK : Nat) (threshold : ℝ) : List (Chunk × ℝ) :=
  if embs.isEmpty || chunks.isEmpty then []
  else
    let scores := cosine_similarity q embs
    if scores.isEmpty then []
    else selectLoop scores chunks topK threshold (argsort scores).reverse []

/-! ## Shared helper lemmas -/

theorem dropWhile_self_idem (p : Char → Bool) (l : Str) :
    (l.dropWhile p).dropWhile p = l.dropWhile p := by
  induction l with
  | nil => rfl
  | cons c l ih =>
    cases hp : p c with
    | true => simpa [List.dropWhile_cons, hp] using ih
    | false => simp [List.dropWhile_cons, hp]

theorem stripList_no_lead (s : Str) :
    (stripList s).dropWhile isSpaceChar = stripList s := by
  unfold stripList
  cases hA : s.dropWhile isSpaceChar with
  | nil => simp
  | cons a as =>
    have hpa : isSpaceChar a = false := by
      have := List.head?_dropWhile_not isSpaceChar s
      rw [hA] at this; simpa using this
    rw [List.reverse_cons, List.dropWhile_append]
    by_cases he : (as.reverse.dropWhile isSpaceChar).isEmpty
    · simp [he, List.dropWhile_cons, hpa]
    · simp only [he, if_false, Bool.false_eq_true]
      rw [List.reverse_append, List.reverse_singleton, List.singleton_append,
        List.dropWhile_cons, hpa]
      simp

theorem stripList_no_trail (s : Str) :
    (stripList s).reverse.dropWhile isSpaceChar = (stripList s).reverse := by
  unfold stripList
  rw [List.reverse_reverse]
  exact dropWhile_self_idem _ _

theorem stripList_idem (s : Str) : stripList (stripList s) = stripList s := by
  conv_lhs => rw [stripList]
  rw [stripList_no_lead, stripList_no_trail, List.reverse_reverse]

theorem stripList_length_le (s : Str) : (stripList s).length ≤ s.length := by
  unfold stripList
  rw [List.length_reverse]
  calc ((s.dropWhile isSpaceChar).reverse.dropWhile isSpaceChar).length
      ≤ (s.dropWhile isSpaceChar).reverse.length :=
        (List.dropWhile_sublist _).length_le
    _ = (s.dropWhile isSpaceChar).length := List.length_reverse _
    _ ≤ s.length := (List.dropWhile_sublist _).length_le

theorem mem_of_mem_stripList {s : Str} {c : Char} (h : c ∈ stripList s) : c ∈ s := by
  unfold stripList at h
  rw [List.mem_reverse] at h
  have h1 := (List.dropWhile_sublist (l := (s.dropWhile isSpaceChar).reverse) isSpaceChar).mem h
  rw [List.mem_reverse] at h1
  exact (List.dropWhile_sublist (l := s) isSpaceChar).mem h1

theorem stripList_eq_nil_iff (s : Str) :
    stripList s = [] ↔ ∀ c ∈ s, isSpaceChar c = true := by
  constructor
  · intro h c hc
    by_contra hns
    cases hA : s.dropWhile isSpaceChar with
    | nil =>
      rw [List.dropWhile_eq_nil_iff] at hA
      exact hns (hA c hc)
    | cons a as =>
      have hpa : isSpaceChar a = false := by
        have := List.head?_dropWhile_not isSpaceChar s
        rw [hA] at this; simpa using this
      unfold stripList at h
      rw [List.reverse_eq_nil_iff, List.dropWhile_eq_nil_iff] at h
      have : a ∈ (s.dropWhile isSpaceChar).reverse := by
        rw [List.mem_reverse, hA]; exact List.mem_cons_self a as
      rw [h a this] at hpa
      simp at hpa
  · intro h
    have hA : s.dropWhile isSpaceChar = [] := by
      rw [List.dropWhile_eq_nil_iff]; exact h
    unfold stripList
    rw [hA]
    rfl

theorem foldl_preserve {α β : Type} (P : α → Prop) (f : α → β → α) (l : List β)
    (Q : β → Prop) (hl : ∀ b ∈ l, Q b)
    (hf : ∀ a b, P a → Q b → P (f a b)) (a : α) (ha : P a) : P (l.foldl f a) := by
  induction l generalizing a with
  | nil => exact ha
  | cons b l ih =>
    exact ih (fun x hx => hl x (List.mem_cons_of_mem b hx))
      (f a b) (hf a b ha (hl b (List.mem_cons_self b l)))

/-! ## C3: lock manager semantics -/

/-- C3: `acquire_lock` raises exactly when a lock record exists whose age
`now - timestamp` is within `timeout`; with no record, or a record whose
age exceeds `timeout`, it succeeds and writes a fresh record carrying the
current owner identity and timestamp; `release_lock` unconditionally
leaves no record and a second release (or a release with no record) is a
no-op rather than an error. -/
theorem lock_manager_semantics (cur : Option LockInfo) (now : Int) (ow : Owner)
    (timeout : Int) :
    ((∃ e, acquire_lock cur now ow timeout = Except.error e) ↔
      ∃ info, cur = some info ∧ now - info.timestamp ≤ timeout) ∧
    ((cur = none ∨ ∃ info, cur = some info ∧ timeout < now - info.timestamp) →
      acquire_lock cur now ow timeout =
        Except.ok (some ⟨now, ow.username, ow.pid, ow.hostname⟩)) ∧
    release_lock cur = none ∧
    release_lock (release_lock cur) = none := by
  refine ⟨⟨?_, ?_⟩, ?_, ?_, ?_⟩
  · intro ⟨e, he⟩
    cases cur with
    | none => simp [acquire_lock] at he
    | some info =>
      refine ⟨info, rfl, ?_⟩
      by_contra hgt
      push_neg at hgt
      simp [acquire_lock, if_pos hgt] at he
  · intro ⟨info, hcur, hage⟩
    subst hcur
    have : ¬ timeout < now - info.timestamp := not_lt.mpr hage
    exact ⟨"Lock held by ".data ++ info.username, by simp [acquire_lock, if_neg this]⟩
  · intro h
    rcases h with rfl | ⟨info, rfl, hstale⟩
    · rfl
    · simp [acquire_lock, if_pos hstale]
  · cases cur <;> rfl
  · cases cur <;> rfl

/-! ## C2: swap atomicity with rollback -/

theorem mem_insArchDesc (x y : Nat × Nat) (l : List (Nat × Nat)) :
    y ∈ insArchDesc x l ↔ y = x ∨ y ∈ l := by
  induction l with
  | nil => simp [insArchDesc]
  | cons z zs ih =>
    by_cases h : z.1 ≤ x.1
    · simp [insArchDesc, h]
    · simp only [insArchDesc, if_neg h, List.mem_cons, ih]
      tauto

theorem mem_sortArchDesc (l : List (Nat × Nat)) (y : Nat × Nat) :
    y ∈ sortArchDesc l ↔ y ∈ l := by
  induction l with
  | nil => simp [sortArchDesc]
  | cons x xs ih =>
    simp only [sortArchDesc, List.foldr_cons] at *
    rw [mem_insArchDesc, ih, List.mem_cons]

theorem insArchDesc_of_max (x : Nat × Nat) (l : List (Nat × Nat))
    (h : ∀ y ∈ l, y.1 < x.1) : insArchDesc x l = x :: l := by
  cases l with
  | nil => rfl
  | cons z zs =>
    have hz := h z (List.mem_cons_self z zs)
    simp [insArchDesc, Nat.le_of_lt hz]

theorem sortArchDesc_cons_max (x : Nat × Nat) (l : List (Nat × Nat))
    (h : ∀ y ∈ l, y.1 < x.1) : sortArchDesc (x :: l) = x :: sortArchDesc l := by
  show insArchDesc x (sortArchDesc l) = _
  exact insArchDesc_of_max _ _ (fun y hy => h y ((mem_sortArchDesc l y).mp hy))

/-- C2: the promotion sequence archives the live index under the fresh
timestamp name (leaving it at the head of the sorted archive), then
removes the live directory and copies staging over it; when the
staging-to-live copy fails after archiving, rollback copies the most
recent archive entry — the just-archived pre-build index — back, so the
live directory ends exactly equal to the pre-build index, never empty and
never the partial content left by the failed copy; on success the live
directory ends equal to staging. -/
theorem swap_rollback (st : SwapState) (c ts : Nat) (partialDir : Option Nat)
    (hc : st.current = some c) (hts : ∀ a ∈ st.archive, a.1 < ts) :
    (promote st ts true partialDir).current = some c ∧
    (promote st ts true partialDir).archive.head? = some (ts, c) ∧
    (promote st ts false partialDir).current = some st.staging ∧
    (promote st ts false partialDir).archive.head? = some (ts, c) := by
  have hsorted : sortArchDesc ((ts, c) :: st.archive) = (ts, c) :: sortArchDesc st.archive :=
    sortArchDesc_cons_max _ _ hts
  have harch : (sortArchDesc ((ts, c) :: st.archive)).take 2 =
      (ts, c) :: (sortArchDesc st.archive).take 1 := by
    rw [hsorted, List.take_succ_cons]
  have htail : ∀ y ∈ (sortArchDesc st.archive).take 1, y.1 < ts := by
    intro y hy
    exact hts y ((mem_sortArchDesc st.archive y).mp ((List.take_sublist 1 _).mem hy))
  have hsorted2 : sortArchDesc ((ts, c) :: (sortArchDesc st.archive).take 1) =
      (ts, c) :: sortArchDesc ((sortArchDesc st.archive).take 1) :=
    sortArchDesc_cons_max _ _ htail
  refine ⟨?_, ?_, ?_, ?_⟩
  · simp [promote, hc, harch, hsorted2]
  · simp [promote, hc, harch, hsorted2]
  · simp [promote, hc, harch]
  · simp [promote, hc, harch]

/-- Witness for the swap rollback theorem: a live index `7`, staging `42`,
one older archive entry `(1, 5)` and a fresh timestamp `2`. -/
theorem swap_rollback_witness :
    ((⟨some 7, 42, [(1, 5)]⟩ : SwapState).current = some 7 ∧
      ∀ a ∈ [((1 : Nat), (5 : Nat))], a.1 < 2) ∧
    (promote ⟨some 7, 42, [(1, 5)]⟩ 2 true (some 99)).current = some 7 ∧
    (promote ⟨some 7, 42, [(1, 5)]⟩ 2 false (some 99)).current = some 42 := by
  have h := swap_rollback ⟨some 7, 42, [(1, 5)]⟩ 7 2 (some 99) rfl (by decide)
  exact ⟨⟨rfl, by decide⟩, h.1, h.2.2.1⟩

/-! ## C8: staging write integrity -/

/-- C8 counterexample: the page-state artifact `wiki_state.json` is
written with a plain direct write (no temp-and-rename), and
`metadata.json` — although one of the four staging artifacts — is absent
from the checksummed integrity file list, so a build whose only missing
artifact is `metadata.json` still proceeds to the swap. This refutes the
claim that all four artifacts are written via atomic rename, that all
four are checksummed, and that any missing artifact aborts the build. -/
theorem staging_write_integrity_cex :
    publishedAtomically stagingWriteOps "wiki_state.json".data = false ∧
    FsOp.write "wiki_state.json".data ∈ stagingWriteOps ∧
    "metadata.json".data ∈ stagingArtifacts ∧
    "metadata.json".data ∉ integrityFiles ∧
    proceedsToSwap (fun f => decide (f ≠ "metadata.json".data)) (fun _ => 0) = true := by
  decide

/-- C8 amended: the chunk list and the embedding matrix are written to a
temporary path and atomically renamed into place, but the page-state
snapshot and the metadata record are written directly; checksums are
computed and reported for exactly three artifacts (chunks, embeddings,
page state — metadata is excluded), and the build proceeds to the swap if
and only if none of those three is missing. -/
theorem staging_write_integrity_amended (ex : Str → Bool) (hash : Str → Nat) :
    publishedAtomically stagingWriteOps "chunks.jsonl".data = true ∧
    publishedAtomically stagingWriteOps "embeddings.npy".data = true ∧
    publishedAtomically stagingWriteOps "wiki_state.json".data = false ∧
    publishedAtomically stagingWriteOps "metadata.json".data = false ∧
    integrityFiles =
      ["chunks.jsonl".data, "embeddings.npy".data, "wiki_state.json".data] ∧
    (∀ f ∈ integrityFiles,
      (f, ex f, if ex f then some (hash f) else none) ∈ integrityReport ex hash) ∧
    (proceedsToSwap ex hash = true ↔ ∀ f ∈ integrityFiles, ex f = true) := by
  refine ⟨by decide, by decide, by decide, by decide, rfl, ?_, ?_⟩
  · intro f hf
    exact List.mem_map_of_mem _ hf
  · cases h1 : ex "chunks.jsonl".data <;>
      cases h2 : ex "embeddings.npy".data <;>
      cases h3 : ex "wiki_state.json".data <;>
      simp [proceedsToSwap, missingFiles, integrityReport, integrityFiles, h1, h2, h3]

/-! ## C6: change detection -/

theorem find?_update {α : Type} (d : List (Str × α)) (k : Str) (v : α)
    (h : d.any (fun p => p.1 = k) = true) :
    (d.map (fun p => if p.1 = k then (k, v) else p)).find? (fun p => p.1 = k) =
      some (k, v) := by
  induction d with
  | nil => simp at h
  | cons p rest ih =>
    rw [List.map_cons]
    by_cases hp : p.1 = k
    · rw [if_pos hp, List.find?_cons_of_pos _ (by simp)]
    · rw [if_neg hp, List.find?_cons_of_neg _ (by simpa using hp)]
      exact ih (by simpa [List.any_cons, hp] using h)

theorem find?_update_ne {α : Type} (d : List (Str × α)) (k k' : Str) (v : α)
    (hk : k' ≠ k) :
    (d.map (fun p => if p.1 = k then (k, v) else p)).find? (fun p => p.1 = k') =
      d.find? (fun p => p.1 = k') := by
  induction d with
  | nil => rfl
  | cons p rest ih =>
    rw [List.map_cons]
    by_cases hp : p.1 = k
    · have h1 : ¬ ((k, v).1 = k') := fun hc => hk hc.symm
      have h2 : ¬ (p.1 = k') := fun hc => hk (by rw [← hc, hp])
      rw [if_pos hp, List.find?_cons_of_neg _ (by simpa using h1),
        List.find?_cons_of_neg _ (by simpa using h2), ih]
    · rw [if_neg hp]
      by_cases hp' : p.1 = k'
      · rw [List.find?_cons_of_pos _ (by simpa using hp'),
          List.find?_cons_of_pos _ (by simpa using hp')]
      · rw [List.find?_cons_of_neg _ (by simpa using hp'),
          List.find?_cons_of_neg _ (by simpa using hp'), ih]

theorem dictGet_insert_self {α : Type} (d : List (Str × α)) (k : Str) (v : α) :
    dictGet (dictInsert d k v) k = some v := by
  unfold dictGet dictInsert
  by_cases h : d.any (fun p => p.1 = k)
  · rw [if_pos h, find?_update d k v h]
    rfl
  · rw [if_neg h, List.find?_append]
    have hnone : d.find? (fun p => p.1 = k) = none := by
      rw [List.find?_eq_none]
      intro x hx hxk
      exact h (List.any_eq_true.mpr ⟨x, hx, hxk⟩)
    simp [hnone]

theorem dictGet_insert_ne {α : Type} (d : List (Str × α)) (k k' : Str) (v : α)
    (hk : k' ≠ k) : dictGet (dictInsert d k v) k' = dictGet d k' := by
  unfold dictGet dictInsert
  by_cases h : d.any (fun p => p.1 = k)
  · rw [if_pos h, find?_update_ne d k k' v hk]
  · rw [if_neg h, List.find?_append]
    have : ([(k, v)].find? (fun p => p.1 = k')) = none := by
      simp [Ne.symm hk]
    rw [this, Option.or_none]

theorem detectStep_fst (full : Bool) (prev : StateDict)
    (acc : StateDict × List FPage) (p : FPage) :
    (detectStep full prev acc p).1 = dictInsert acc.1 p.title ⟨p.revid, p.timestamp⟩ := by
  unfold detectStep
  split <;> rfl

theorem detect_snd (full : Bool) (prev : StateDict) (pages : List FPage) :
    (detect full prev pages).2 = pages.filter (pageChanged full prev) := by
  suffices h : ∀ acc : StateDict × List FPage,
      (pages.foldl (detectStep full prev) acc).2 =
        acc.2 ++ pages.filter (pageChanged full prev) by
    simpa using h ([], [])
  induction pages with
  | nil => intro acc; simp
  | cons p ps ih =>
    intro acc
    by_cases hc : pageChanged full prev p
    · simp [List.foldl_cons, detectStep, hc, ih, List.filter_cons]
    · simp [List.foldl_cons, detectStep, hc, ih, List.filter_cons]

theorem detect_fst_keys (full : Bool) (prev : StateDict) (pages : List FPage)
    (t : Str) :
    (dictGet (detect full prev pages).1 t).isSome ↔ t ∈ pages.map (·.title) := by
  suffices h : ∀ acc : StateDict × List FPage,
      (dictGet (pages.foldl (detectStep full prev) acc).1 t).isSome ↔
        ((dictGet acc.1 t).isSome ∨ t ∈ pages.map (·.title)) by
    simpa [dictGet] using h ([], [])
  induction pages with
  | nil => intro acc; simp
  | cons p ps ih =>
    intro acc
    rw [List.foldl_cons, ih]
    by_cases ht : t = p.title
    · subst ht
      rw [detectStep_fst, dictGet_insert_self]
      simp
    · rw [detectStep_fst, dictGet_insert_ne _ _ _ _ ht]
      simp [ht]

theorem pageChanged_iff (full : Bool) (prev : StateDict) (p : FPage) :
    pageChanged full prev p = true ↔
      (full = true ∨ dictGet prev p.title = none ∨
        ∃ e, dictGet prev p.title = some e ∧ e.revid ≠ p.revid) := by
  unfold pageChanged
  cases hget : dictGet prev p.title <;> cases full <;> simp [hget]

/-- C6: for every previous state, fetched page list and full-rebuild flag,
a fetched page lands in `changed_pages` iff the flag is set, or its title
has no entry in the previous state, or the recorded revision id differs;
and the returned new state has an entry exactly for the titles of the
fetched pages, so titles present only in the previous state are dropped. -/
theorem change_detection (full : Bool) (prevPages : StateDict) (pages : List FPage) :
    (∀ p ∈ pages,
      (p ∈ (detect full prevPages pages).2 ↔
        (full = true ∨ dictGet prevPages p.title = none ∨
          ∃ e, dictGet prevPages p.title = some e ∧ e.revid ≠ p.revid))) ∧
    (∀ t : Str,
      (dictGet (detect full prevPages pages).1 t).isSome ↔ t ∈ pages.map (·.title)) := by
  constructor
  · intro p hp
    rw [detect_snd, List.mem_filter, ← pageChanged_iff full prevPages p]
    simp [hp]
  · exact detect_fst_keys full prevPages pages

/-! ## C7: merge carry-over and ordering -/

theorem carry_foldl (prevP newP : StateDict) (ct : List Str) (l : List Chunk)
    (acc : List Chunk) :
    l.foldl (carryStep prevP newP ct) acc = acc ++ l.filter (carriedOver prevP newP ct) := by
  induction l generalizing acc with
  | nil => simp
  | cons c rest ih =>
    by_cases h : carriedOver prevP newP ct c
    · simp [List.foldl_cons, carryStep, h, ih, List.filter_cons]
    · simp [List.foldl_cons, carryStep, h, ih, List.filter_cons]

theorem fresh_foldl (cs ov : Nat) (changed : List FPage) (base : List Chunk) :
    changed.foldl (fun acc p => acc ++ chunk_text ⟨p.title, p.content⟩ cs ov) base =
      base ++ (changed.map (fun p => chunk_text ⟨p.title, p.content⟩ cs ov)).flatten := by
  induction changed generalizing base with
  | nil => simp
  | cons p ps ih => simp [List.foldl_cons, ih]

/-- C7: in an incremental merge the output is exactly the carried-over
previous chunks (in their original relative order) followed by the fresh
chunks of the changed pages, chunked in fetch order; and a previous chunk
is carried over iff its page title has an entry in both the previous and
the new state and is not among the changed pages' titles. -/
theorem merge_carry_over_and_order (prevPages newPages : StateDict)
    (prevChunks : List Chunk) (changed : List FPage) (cs ov : Nat) :
    mergeChunks false prevPages newPages prevChunks changed cs ov =
      prevChunks.filter (carriedOver prevPages newPages (changed.map (·.title))) ++
        (changed.map (fun p => chunk_text ⟨p.title, p.content⟩ cs ov)).flatten ∧
    (∀ c ∈ prevChunks,
      (c ∈ prevChunks.filter (carriedOver prevPages newPages (changed.map (·.title))) ↔
        ((dictGet prevPages c.page_title).isSome ∧
          (dictGet newPages c.page_title).isSome ∧
          c.page_title ∉ changed.map (·.title)))) := by
  constructor
  · unfold mergeChunks
    rw [if_neg (by simp), carry_foldl, fresh_foldl]
    simp
  · intro c hc
    rw [List.mem_filter]
    unfold carriedOver
    simp [hc, and_assoc]

/-! ## C1: incremental embedding frame property -/

/-- C1 counterexample: in an incremental build with previous state
`A ↦ rev 1` and fetched pages `A (rev 1, unchanged)` and `B (rev 2, new)`,
the changed set is exactly `B`, yet the carried-over chunk of the
unchanged page `A` is part of the merged list that `main` passes to
`Embedder.embed_chunks`, so an embedding is computed for it as well
(the model embeds one vector per merged chunk: two vectors here, not
one). This refutes the claim that embedding vectors are produced only
for chunks of changed pages. -/
theorem incremental_embedding_cex :
    (detect false [(['A'], ⟨some 1, some 0⟩)]
        [⟨['A'], some 1, some 0, ['a']⟩, ⟨['B'], some 2, some 0, ['b']⟩]).2.map
        (fun p => p.title) = [['B']] ∧
    mkChunk ['A'] 0 ['a'] ∈
      mergeChunks false [(['A'], ⟨some 1, some 0⟩)]
        (detect false [(['A'], ⟨some 1, some 0⟩)]
          [⟨['A'], some 1, some 0, ['a']⟩, ⟨['B'], some 2, some 0, ['b']⟩]).1
        [mkChunk ['A'] 0 ['a']]
        (detect false [(['A'], ⟨some 1, some 0⟩)]
          [⟨['A'], some 1, some 0, ['a']⟩, ⟨['B'], some 2, some 0, ['b']⟩]).2
        10 5 ∧
    (mkChunk ['A'] 0 ['a']).page_title ∉ [['B']] ∧
    (embed_chunks (fun _ => ([] : List ℚ))
      (mergeChunks false [(['A'], ⟨some 1, some 0⟩)]
        (detect false [(['A'], ⟨some 1, some 0⟩)]
          [⟨['A'], some 1, some 0, ['a']⟩, ⟨['B'], some 2, some 0, ['b']⟩]).1
        [mkChunk ['A'] 0 ['a']]
        (detect false [(['A'], ⟨some 1, some 0⟩)]
          [⟨['A'], some 1, some 0, ['a']⟩, ⟨['B'], some 2, some 0, ['b']⟩]).2
        10 5)).length = 2 := by
  decide

/-- C1 amended: `main` passes the whole merged chunk list to
`Embedder.embed_chunks`, so embeddings are recomputed for every chunk —
changed and carried-over alike — not only for the changed subset. Still,
after the merge the embedding list is index-aligned with the chunk list
(`len(chunks) == len(embeddings)`), every position holds the embedding of
that position's chunk text, and — the embedding model being a
deterministic function — a carried-over chunk's vector at its new
position is identical to the previous build's vector at the chunk's old
position. -/
theorem incremental_embedding_amended (embed : Str → List ℚ) (full : Bool)
    (prevPages newPages : StateDict) (prevChunks : List Chunk) (changed : List FPage)
    (cs ov : Nat) (prevEmbs : List (List ℚ))
    (hprev : prevEmbs = embed_chunks embed prevChunks) :
    (embed_chunks embed (mergeChunks full prevPages newPages prevChunks changed cs ov)).length =
      (mergeChunks full prevPages newPages prevChunks changed cs ov).length ∧
    (∀ i : Nat,
      (embed_chunks embed (mergeChunks full prevPages newPages prevChunks changed cs ov))[i]? =
        ((mergeChunks full prevPages newPages prevChunks changed cs ov)[i]?).map
          (fun c => embed c.text)) ∧
    (∀ (i j : Nat) (c : Chunk),
      (mergeChunks full prevPages newPages prevChunks changed cs ov)[i]? = some c →
      prevChunks[j]? = some c →
      (embed_chunks embed (mergeChunks full prevPages newPages prevChunks changed cs ov))[i]? =
        prevEmbs[j]?) := by
  generalize mergeChunks full prevPages newPages prevChunks changed cs ov = merged
  refine ⟨by simp [embed_chunks], ?_, ?_⟩
  · intro i
    simp only [embed_chunks, List.getElem?_map]
    cases merged[i]? <;> rfl
  · intro i j c hi hj
    rw [hprev]
    simp [embed_chunks, List.getElem?_map, hi, hj]

/-- Witness for the amended C1 theorem at the empty build with the
constant embedding model. -/
theorem incremental_embedding_amended_witness :
    (([] : List (List ℚ)) = embed_chunks (fun _ => []) []) ∧
    (embed_chunks (fun _ => ([] : List ℚ)) (mergeChunks false [] [] [] [] 0 0)).length =
      (mergeChunks false [] [] [] [] 0 0).length :=
  ⟨rfl, (incremental_embedding_amended (fun _ => []) false [] [] [] [] 0 0 [] rfl).1⟩

/-! ## Chunker helper lemmas -/

theorem tailOf_length_le (ov : Nat) (cur : Str) : (tailOf ov cur).length ≤ ov := by
  unfold tailOf
  split
  · rename_i h
    rw [List.length_drop]
    omega
  · simp

theorem emit_current (title : Str) (st : CState) (part : Str) :
    (emit title st part).current = st.current := by
  by_cases hp : (stripList part).isEmpty
  · simp [emit, hp]
  · simp [emit, hp]

theorem mem_le_foldr_max (x : Nat) (l : List Nat) (h : x ∈ l) :
    x ≤ l.foldr max 0 := by
  induction l with
  | nil => cases h
  | cons y ys ih =>
    rcases List.mem_cons.mp h with rfl | hm
    · exact Nat.le_max_left _ _
    · exact le_trans (ih hm) (Nat.le_max_right _ _)

theorem sizeInv_emit {B : Nat} {st : CState} (title part : Str)
    (h : sizeInv B st) (hp : part.length ≤ B) : sizeInv B (emit title st part) := by
  by_cases he : (stripList part).isEmpty
  · simpa [emit, he] using h
  · simp only [emit, he, if_false, Bool.false_eq_true]
    refine ⟨?_, h.2⟩
    intro c hc
    rcases List.mem_append.mp hc with h1 | h2
    · exact h.1 c h1
    · rw [List.mem_singleton] at h2
      subst h2
      exact le_trans (stripList_length_le part) hp

theorem sizeInv_sentStep {B cs ov : Nat} (title : Str) {st : CState} (s0 : Str)
    (h : sizeInv B st) (hcs : cs ≤ B) (hs : (stripList s0).length + ov + 1 ≤ B) :
    sizeInv B (sentStep title cs ov st s0) := by
  by_cases h1 : (stripList s0).isEmpty
  · simpa [sentStep, h1] using h
  · by_cases h2 : st.current.isEmpty
    · simp only [sentStep, h1, h2, if_false, if_true, Bool.false_eq_true]
      refine ⟨h.1, ?_⟩
      show (stripList s0).length ≤ B
      omega
    · by_cases h3 : cs < st.current.length + 1 + (stripList s0).length
      · simp only [sentStep, h1, h2, h3, if_false, if_true, Bool.false_eq_true]
        refine ⟨(sizeInv_emit title st.current h h.2).1, ?_⟩
        calc (stripList (tailOf ov st.current ++ [' '] ++ stripList s0)).length
            ≤ (tailOf ov st.current ++ [' '] ++ stripList s0).length :=
              stripList_length_le _
          _ = (tailOf ov st.current).length + 1 + (stripList s0).length := by
              simp only [List.length_append, List.length_cons, List.length_nil]
          _ ≤ ov + 1 + (stripList s0).length := by
              have := tailOf_length_le ov st.current
              omega
          _ ≤ B := by omega
      · simp only [sentStep, h1, h2, h3, if_false, Bool.false_eq_true]
        refine ⟨h.1, ?_⟩
        push_neg at h3
        calc (stripList (st.current ++ [' '] ++ stripList s0)).length
            ≤ (st.current ++ [' '] ++ stripList s0).length := stripList_length_le _
          _ = st.current.length + 1 + (stripList s0).length := by
              simp only [List.length_append, List.length_cons, List.length_nil]
          _ ≤ cs := h3
          _ ≤ B := hcs

theorem sizeInv_sliceLoop {B cs ov : Nat} (title longText : Str) (hcs : cs ≤ B) :
    ∀ (fuel start : Nat) (st : CState), sizeInv B st →
      sizeInv B (sliceLoop title cs ov longText fuel start st).1 := by
  intro fuel
  induction fuel with
  | zero => intro start st h; exact h
  | succ n ih =>
    intro start st h
    unfold sliceLoop
    split
    · apply ih
      apply sizeInv_emit _ _ h
      calc ((longText.drop start).take cs).length ≤ cs := by
            rw [List.length_take]
            exact Nat.min_le_left _ _
        _ ≤ B := hcs
    · exact h

theorem sizeInv_paraStep {B cs ov : Nat} (title : Str) {st : CState} (para0 : Str)
    (h : sizeInv B st) (hB : cs + ov + 2 ≤ B)
    (hsent : ∀ s ∈ splitSentences (stripList para0), s.length + ov + 1 ≤ B) :
    sizeInv B (paraStep title cs ov st para0) := by
  have hcs : cs ≤ B := by omega
  by_cases h1 : (stripList para0).isEmpty
  · simpa [paraStep, h1] using h
  · by_cases h2 : (stripList para0).length ≤ cs
    · by_cases h3 : st.current.isEmpty
      · simp only [paraStep, h1, h2, h3, if_false, if_true, Bool.false_eq_true]
        refine ⟨h.1, ?_⟩
        show (stripList para0).length ≤ B
        omega
      · by_cases h4 : cs < st.current.length + 2 + (stripList para0).length
        · simp only [paraStep, h1, h2, h3, h4, if_false, if_true, Bool.false_eq_true]
          refine ⟨(sizeInv_emit title st.current h h.2).1, ?_⟩
          calc (stripList (tailOf ov st.current ++ nl2 ++ stripList para0)).length
              ≤ (tailOf ov st.current ++ nl2 ++ stripList para0).length :=
                stripList_length_le _
            _ = (tailOf ov st.current).length + 2 + (stripList para0).length := by
                simp only [nl2, List.length_append, List.length_cons, List.length_nil]
            _ ≤ ov + 2 + cs := by
                have := tailOf_length_le ov st.current
                omega
            _ ≤ B := by omega
        · simp only [paraStep, h1, h2, h3, h4, if_false, if_true, Bool.false_eq_true]
          refine ⟨h.1, ?_⟩
          push_neg at h4
          calc (stripList (st.current ++ nl2 ++ stripList para0)).length
              ≤ (st.current ++ nl2 ++ stripList para0).length := stripList_length_le _
            _ = st.current.length + 2 + (stripList para0).length := by
                simp only [nl2, List.length_append, List.length_cons, List.length_nil]
            _ ≤ cs := h4
            _ ≤ B := hcs
    · by_cases h5 : (splitSentences (stripList para0)).length = 1 ∧
          cs < ((splitSentences (stripList para0)).headD []).length
      · simp only [paraStep, h1, h2, h5, if_false, if_true, Bool.false_eq_true]
        apply sizeInv_sliceLoop title _ hcs
        by_cases h3 : st.current.isEmpty
        · simpa [h3] using h
        · simp only [h3, if_false, Bool.false_eq_true]
          exact ⟨(sizeInv_emit title st.current h h.2).1, by simp⟩
      · simp only [paraStep, h1, h2, h5, if_false, Bool.false_eq_true]
        apply foldl_preserve (sizeInv B) _ _
          (fun s => s ∈ splitSentences (stripList para0)) (fun b hb => hb)
          _ _ h
        intro a b ha hb
        exact sizeInv_sentStep title b ha hcs
          (by have h6 := stripList_length_le b; have h7 := hsent b hb; omega)

/-! ## C10: termination of the slicing fallback -/

/-- C10: when `overlap < chunk_size` the fixed-slicing loop of
`chunk_text` always terminates — with fuel `len(long_text) + 1` (the fuel
`chunk_text` uses) the loop condition has become false — because each
iteration advances the position by `chunk_size - overlap ≥ 1`; the
precondition is necessary: with `chunk_size = overlap = 5` and a single
unsplittable six-character text the step is zero, the position stays at
`0 < 6`, and the loop never finishes regardless of fuel. -/
theorem chunker_slicing_termination (title : Str) (cs ov : Nat) (t : Str)
    (h : ov < cs) :
    (∀ (start : Nat) (st : CState),
      (sliceLoop title cs ov t (t.length + 1) start st).2 = true) ∧
    (∀ (fuel : Nat) (st : CState),
      (sliceLoop ['T'] 5 5 ['a', 'a', 'a', 'a', 'a', 'a'] fuel 0 st).2 = false) := by
  constructor
  · have key : ∀ (fuel start : Nat) (st : CState),
        t.length ≤ start + fuel * (cs - ov) →
        (sliceLoop title cs ov t fuel start st).2 = true := by
      intro fuel
      induction fuel with
      | zero =>
        intro start st hle
        unfold sliceLoop
        simp
        omega
      | succ n ih =>
        intro start st hle
        unfold sliceLoop
        split
        · apply ih
          have : (n + 1) * (cs - ov) = n * (cs - ov) + (cs - ov) := Nat.succ_mul n (cs - ov)
          omega
        · rfl
    intro start st
    apply key
    have h1 : 1 ≤ cs - ov := by omega
    have h2 : t.length + 1 ≤ (t.length + 1) * (cs - ov) := by
      calc t.length + 1 = (t.length + 1) * 1 := (Nat.mul_one _).symm
        _ ≤ (t.length + 1) * (cs - ov) := Nat.mul_le_mul_left _ h1
    omega
  · intro fuel
    induction fuel with
    | zero => intro st; rfl
    | succ n ih =>
      intro st
      show (sliceLoop ['T'] 5 5 ['a', 'a', 'a', 'a', 'a', 'a'] n (0 + (5 - 5)) _).2 = false
      exact ih _

/-- Witness for the slicing termination theorem at `chunk_size = 1`,
`overlap = 0`, a one-character text. -/
theorem chunker_slicing_termination_witness :
    (0 : Nat) < 1 ∧
    (sliceLoop ['T'] 1 0 ['a'] 2 0 ⟨[], 0, []⟩).2 = true :=
  ⟨by decide, (chunker_slicing_termination ['T'] 1 0 ['a'] (by decide)).1 0 ⟨[], 0, []⟩⟩

/-! ## C9: chunker basic postconditions -/

theorem mem_emit_chunks {title : Str} {st : CState} {part : Str} {c : Chunk}
    (hc : c ∈ (emit title st part).chunks) :
    c ∈ st.chunks ∨ c = mkChunk title st.idx (stripList part) := by
  by_cases he : (stripList part).isEmpty
  · simp only [emit, he, if_true] at hc
    exact Or.inl hc
  · simp only [emit, he, if_false, Bool.false_eq_true] at hc
    rcases List.mem_append.mp hc with h1 | h2
    · exact Or.inl h1
    · exact Or.inr (List.mem_singleton.mp h2)

theorem idxInv_emit (title : Str) (st : CState) (part : Str) (h : idxInv st) :
    idxInv (emit title st part) := by
  by_cases he : (stripList part).isEmpty
  · simpa [emit, he] using h
  · simp only [emit, he, if_false, Bool.false_eq_true]
    constructor
    · show (st.chunks ++ [mkChunk title st.idx (stripList part)]).map
          (fun c => c.chunk_index) = List.range (st.idx + 1)
      rw [List.map_append, h.1, List.range_succ]
      rfl
    · intro c hc
      rcases List.mem_append.mp hc with h1 | h2
      · exact h.2 c h1
      · rw [List.mem_singleton] at h2
        subst h2
        refine ⟨rfl, stripList_idem part, ?_⟩
        intro hnil
        exact he (by simp [mkChunk] at hnil; simp [hnil])

theorem idxInv_sentStep (title : Str) (cs ov : Nat) (st : CState) (s0 : Str)
    (h : idxInv st) : idxInv (sentStep title cs ov st s0) := by
  by_cases h1 : (stripList s0).isEmpty
  · simpa [sentStep, h1] using h
  · by_cases h2 : st.current.isEmpty
    · simp only [sentStep, h1, h2, if_false, if_true, Bool.false_eq_true]
      exact h
    · by_cases h3 : cs < st.current.length + 1 + (stripList s0).length
      · simp only [sentStep, h1, h2, h3, if_false, if_true, Bool.false_eq_true]
        exact idxInv_emit title st st.current h
      · simp only [sentStep, h1, h2, h3, if_false, Bool.false_eq_true]
        exact h

theorem idxInv_sliceLoop (title : Str) (cs ov : Nat) (lt : Str) :
    ∀ (fuel start : Nat) (st : CState), idxInv st →
      idxInv (sliceLoop title cs ov lt fuel start st).1 := by
  intro fuel
  induction fuel with
  | zero => intro start st h; exact h
  | succ n ih =>
    intro start st h
    unfold sliceLoop
    split
    · exact ih _ _ (idxInv_emit title st _ h)
    · exact h

theorem idxInv_paraStep (title : Str) (cs ov : Nat) (st : CState) (para0 : Str)
    (h : idxInv st) : idxInv (paraStep title cs ov st para0) := by
  by_cases h1 : (stripList para0).isEmpty
  · simpa [paraStep, h1] using h
  · by_cases h2 : (stripList para0).length ≤ cs
    · by_cases h3 : st.current.isEmpty
      · simp only [paraStep, h1, h2, h3, if_false, if_true, Bool.false_eq_true]
        exact h
      · by_cases h4 : cs < st.current.length + 2 + (stripList para0).length
        · simp only [paraStep, h1, h2, h3, h4, if_false, if_true, Bool.false_eq_true]
          exact idxInv_emit title st st.current h
        · simp only [paraStep, h1, h2, h3, h4, if_false, if_true, Bool.false_eq_true]
          exact h
    · by_cases h5 : (splitSentences (stripList para0)).length = 1 ∧
          cs < ((splitSentences (stripList para0)).headD []).length
      · simp only [paraStep, h1, h2, h5, if_false, if_true, Bool.false_eq_true]
        apply idxInv_sliceLoop
        by_cases h3 : st.current.isEmpty
        · simpa [h3] using h
        · simp only [h3, if_false, Bool.false_eq_true]
          exact idxInv_emit title st st.current h
      · simp only [paraStep, h1, h2, h5, if_false, Bool.false_eq_true]
        exact foldl_preserve idxInv _ _ (fun _ => True) (fun _ _ => trivial)
          (fun a b ha _ => idxInv_sentStep title cs ov a b ha) _ h

theorem paraSplitGo_chars :
    ∀ (t acc : Str) (sk : Bool) (p : Str), p ∈ paraSplitGo t acc sk →
      ∀ c ∈ p, c ∈ t ∨ c ∈ acc := by
  intro t
  induction t with
  | nil =>
    intro acc sk p hp c hc
    simp only [paraSplitGo, List.mem_singleton] at hp
    subst hp
    exact Or.inr (List.mem_reverse.mp hc)
  | cons x rest ih =>
    intro acc sk p hp c hc
    cases sk with
    | true =>
      simp only [paraSplitGo, if_true] at hp
      by_cases hx : x = '\n'
      · rw [if_pos hx] at hp
        rcases ih acc true p hp c hc with h1 | h2
        · exact Or.inl (List.mem_cons_of_mem _ h1)
        · exact Or.inr h2
      · rw [if_neg hx] at hp
        rcases ih [x] false p hp c hc with h1 | h2
        · exact Or.inl (List.mem_cons_of_mem _ h1)
        · rw [List.mem_singleton] at h2
          subst h2
          exact Or.inl (List.mem_cons_self _ _)
    | false =>
      simp only [paraSplitGo, Bool.false_eq_true, if_false] at hp
      by_cases hcut : x = '\n' ∧ rest.head? = some '\n'
      · rw [if_pos hcut] at hp
        rcases List.mem_cons.mp hp with rfl | hp'
        · exact Or.inr (List.mem_reverse.mp hc)
        · rcases ih [] true p hp' c hc with h1 | h2
          · exact Or.inl (List.mem_cons_of_mem _ h1)
          · cases h2
      · rw [if_neg hcut] at hp
        rcases ih (x :: acc) false p hp c hc with h1 | h2
        · exact Or.inl (List.mem_cons_of_mem _ h1)
        · rcases List.mem_cons.mp h2 with rfl | h3
          · exact Or.inl (List.mem_cons_self _ _)
          · exact Or.inr h3

theorem chunk_text_shape (page : Page) (cs ov : Nat) :
    ∃ n : Nat, (chunk_text page cs ov).map (fun c => c.chunk_index) = List.range n ∧
      ∀ c ∈ chunk_text page cs ov, chunkWF c := by
  by_cases hctn : page.content.isEmpty
  · exact ⟨0, by simp [chunk_text, hctn], by simp [chunk_text, hctn]⟩
  · have hfold : idxInv ((paraSplit page.content).foldl (paraStep page.title cs ov)
        ⟨[], 0, []⟩) :=
      foldl_preserve idxInv _ _ (fun _ => True) (fun _ _ => trivial)
        (fun a b ha _ => idxInv_paraStep page.title cs ov a b ha) _ ⟨by simp, by simp⟩
    have heq : chunk_text page cs ov =
        (if ((paraSplit page.content).foldl (paraStep page.title cs ov)
              ⟨[], 0, []⟩).current.isEmpty
          then (paraSplit page.content).foldl (paraStep page.title cs ov) ⟨[], 0, []⟩
          else emit page.title
            ((paraSplit page.content).foldl (paraStep page.title cs ov) ⟨[], 0, []⟩)
            ((paraSplit page.content).foldl (paraStep page.title cs ov)
              ⟨[], 0, []⟩).current).chunks := by
      simp only [chunk_text, hctn, if_false, Bool.false_eq_true]
    rw [heq]
    split
    · exact ⟨_, hfold.1, hfold.2⟩
    · have h2 := idxInv_emit page.title _
        ((paraSplit page.content).foldl (paraStep page.title cs ov) ⟨[], 0, []⟩).current
        hfold
      exact ⟨_, h2.1, h2.2⟩

/-- C9: `chunk_text` emits chunks whose `chunk_index` values are exactly
`0, 1, 2, ...` in output order (hence strictly increasing), whose
`char_count` equals the length of the chunk text, and whose text equals
its own trim and is non-empty (a chunk is only emitted when its trimmed
content is non-empty); empty or whitespace-only page content yields the
empty chunk list. -/
theorem chunker_postconditions (page : Page) (cs ov : Nat) :
    ((chunk_text page cs ov).map (fun c => c.chunk_index)) =
      List.range (chunk_text page cs ov).length ∧
    (∀ c ∈ chunk_text page cs ov,
      c.char_count = c.text.length ∧ stripList c.text = c.text ∧ c.text ≠ []) ∧
    (stripList page.content = [] → chunk_text page cs ov = []) := by
  obtain ⟨n, hmap, hwf⟩ := chunk_text_shape page cs ov
  refine ⟨?_, ?_, ?_⟩
  · have hlen : (chunk_text page cs ov).length = n := by
      have hcg := congrArg List.length hmap
      simpa using hcg
    rw [hmap, hlen]
  · intro c hc
    exact hwf c hc
  · intro hws
    by_cases hctn : page.content.isEmpty
    · simp [chunk_text, hctn]
    · have hall : ∀ b ∈ paraSplit page.content, stripList b = [] := by
        intro b hb
        rw [stripList_eq_nil_iff]
        intro c hcmem
        have hcc : c ∈ page.content := by
          rcases paraSplitGo_chars page.content [] false b hb c hcmem with h1 | h2
          · exact h1
          · cases h2
        exact (stripList_eq_nil_iff page.content).mp hws c hcc
      have hfold : (paraSplit page.content).foldl (paraStep page.title cs ov)
          ⟨[], 0, []⟩ = ⟨[], 0, []⟩ :=
        foldl_preserve (fun st => st = ⟨[], 0, []⟩) _ _
          (fun b => b ∈ paraSplit page.content) (fun b hb => hb)
          (fun a b ha hb => by
            subst ha
            have hbe : (stripList b).isEmpty = true := by rw [hall b hb]; rfl
            simp [paraStep, hbe]) _ rfl
      simp [chunk_text, hctn, hfold]

/-! ## C4: chunk size bound -/

/-- C4 counterexample: with `chunk_size = 10`, `overlap = 5` and three
ten-character paragraphs, every paragraph fits the target (so the
fixed-slicing fallback is never reached — it only runs for a paragraph
longer than `chunk_size`), yet `chunk_text` emits a chunk of 17 > 10
characters: the buffer seeded as overlap-tail + separator + paragraph
exceeds the target. This refutes the claim that only slicing-fallback
chunks may reach `targetSize` and nothing exceeds it. -/
theorem chunk_size_bound_cex :
    (∀ p ∈ paraSplit "aaaaaaaaaa\n\nbbbbbbbbbb\n\ncccccccccc".data,
      (stripList p).length ≤ 10) ∧
    (∃ c ∈ chunk_text ⟨"T".data, "aaaaaaaaaa\n\nbbbbbbbbbb\n\ncccccccccc".data⟩ 10 5,
      10 < c.char_count) := by
  decide

/-- C4 amended: chunks can exceed `targetSize`: an overlap-seeded buffer
can reach `targetSize + overlap + 2` characters and a buffer seeded with
an over-long sentence can reach that sentence's length plus
`overlap + 1`; every chunk's `char_count` is bounded by
`max targetSize (longest sentence length) + overlap + 2`, and the chunks
emitted by the fixed-slicing fallback itself never exceed `targetSize`
(slices can be shorter than `targetSize` — also before the final one —
because each slice is trimmed). -/
theorem chunk_size_bound_amended (page : Page) (cs ov : Nat) :
    (∀ c ∈ chunk_text page cs ov,
      c.char_count ≤ max cs (maxSentLen page.content) + ov + 2) ∧
    (∀ (title lt : Str) (fuel start : Nat) (st : CState),
      ∀ c ∈ (sliceLoop title cs ov lt fuel start st).1.chunks,
        c ∈ st.chunks ∨ c.char_count ≤ cs) := by
  constructor
  · by_cases hctn : page.content.isEmpty
    · simp [chunk_text, hctn]
    · have hBcs : cs + ov + 2 ≤ max cs (maxSentLen page.content) + ov + 2 := by
        have := Nat.le_max_left cs (maxSentLen page.content)
        omega
      have hfold : sizeInv (max cs (maxSentLen page.content) + ov + 2)
          ((paraSplit page.content).foldl (paraStep page.title cs ov) ⟨[], 0, []⟩) := by
        apply foldl_preserve _ _ _ (fun p => p ∈ paraSplit page.content) (fun b hb => hb)
          _ _ ⟨by simp, by simp⟩
        intro a b ha hb
        apply sizeInv_paraStep page.title b ha hBcs
        intro s hs
        have h1 : s.length ≤ ((splitSentences (stripList b)).map List.length).foldr max 0 :=
          mem_le_foldr_max _ _ (List.mem_map_of_mem _ hs)
        have h2 : ((splitSentences (stripList b)).map List.length).foldr max 0 ≤
            maxSentLen page.content :=
          mem_le_foldr_max _ _ (List.mem_map_of_mem _ hb)
        have h3 := Nat.le_max_right cs (maxSentLen page.content)
        omega
      have heq : chunk_text page cs ov =
          (if ((paraSplit page.content).foldl (paraStep page.title cs ov)
                ⟨[], 0, []⟩).current.isEmpty
            then (paraSplit page.content).foldl (paraStep page.title cs ov) ⟨[], 0, []⟩
            else emit page.title
              ((paraSplit page.content).foldl (paraStep page.title cs ov) ⟨[], 0, []⟩)
              ((paraSplit page.content).foldl (paraStep page.title cs ov)
                ⟨[], 0, []⟩).current).chunks := by
        simp only [chunk_text, hctn, if_false, Bool.false_eq_true]
      rw [heq]
      split
      · exact hfold.1
      · exact (sizeInv_emit _ _ hfold hfold.2).1
  · intro title lt fuel
    induction fuel with
    | zero =>
      intro start st c hc
      exact Or.inl hc
    | succ n ih =>
      intro start st c hc
      unfold sliceLoop at hc
      by_cases hlt : start < lt.length
      · rw [if_pos hlt] at hc
        rcases ih _ _ c hc with hm | hb
        · rcases mem_emit_chunks hm with hm2 | hm3
          · exact Or.inl hm2
          · refine Or.inr ?_
            subst hm3
            show (stripList ((lt.drop start).take cs)).length ≤ cs
            calc (stripList ((lt.drop start).take cs)).length
                ≤ ((lt.drop start).take cs).length := stripList_length_le _
              _ ≤ cs := by
                  rw [List.length_take]
                  exact Nat.min_le_left _ _
        · exact Or.inr hb
      · rw [if_neg hlt] at hc
        exact Or.inl hc

/-- Witness for the amended chunk-size bound at a two-character page. -/
theorem chunk_size_bound_amended_witness :
    mkChunk "T".data 0 "ab".data ∈ chunk_text ⟨"T".data, "ab".data⟩ 10 5 ∧
    (mkChunk "T".data 0 "ab".data).char_count ≤
      max 10 (maxSentLen "ab".data) + 5 + 2 := by
  refine ⟨by decide, ?_⟩
  exact (chunk_size_bound_amended ⟨"T".data, "ab".data⟩ 10 5).1 _ (by decide)

/-! ## C5: search postconditions -/

theorem mem_argInsert (scores : List ℝ) (i : Nat) (l : List Nat) (k : Nat) :
    k ∈ argInsert scores i l ↔ k = i ∨ k ∈ l := by
  induction l with
  | nil => simp [argInsert]
  | cons j rest ih =>
    by_cases h : scores.getD j 0 ≤ scores.getD i 0
    · simp only [argInsert, h, if_true, List.mem_cons, ih]
      tauto
    · simp only [argInsert, h, if_false, List.mem_cons]

theorem argInsert_pairwise (scores : List ℝ) (i : Nat) (l : List Nat)
    (hp : l.Pairwise (ordRel scores)) (hlt : ∀ j ∈ l, j < i) :
    (argInsert scores i l).Pairwise (ordRel scores) := by
  induction l with
  | nil => simp [argInsert]
  | cons j rest ih =>
    rw [List.pairwise_cons] at hp
    by_cases h : scores.getD j 0 ≤ scores.getD i 0
    · simp only [argInsert, h, if_true]
      rw [List.pairwise_cons]
      constructor
      · intro k hk
        rcases (mem_argInsert scores i rest k).mp hk with rfl | hk2
        · rcases lt_or_eq_of_le h with hlt2 | heq
          · exact Or.inl hlt2
          · exact Or.inr ⟨heq, Nat.le_of_lt (hlt j (List.mem_cons_self j rest))⟩
        · exact hp.1 k hk2
      · exact ih hp.2 (fun k hk => hlt k (List.mem_cons_of_mem j hk))
    · simp only [argInsert, h, if_false]
      push_neg at h
      rw [List.pairwise_cons]
      constructor
      · intro k hk
        rcases List.mem_cons.mp hk with rfl | hk2
        · exact Or.inl h
        · have hjk := hp.1 k hk2
          rcases hjk with h1 | h2
          · exact Or.inl (lt_trans h h1)
          · exact Or.inl (lt_of_lt_of_le h (le_of_eq h2.1))
      · exact List.pairwise_cons.mpr hp
theorem argInsert_nodup (scores : List ℝ) (i : Nat) (l : List Nat)
    (hn : l.Nodup) (hi : i ∉ l) : (argInsert scores i l).Nodup := by
  induction l with
  | nil => simp [argInsert]
  | cons j rest ih =>
    rw [List.nodup_cons] at hn
    have hij : i ≠ j := fun h => hi (h ▸ List.mem_cons_self j rest)
    have hirest : i ∉ rest := fun h => hi (List.mem_cons_of_mem j h)
    by_cases h : scores.getD j 0 ≤ scores.getD i 0
    · simp only [argInsert, h, if_true]
      rw [List.nodup_cons]
      refine ⟨?_, ih hn.2 hirest⟩
      intro hmem
      rcases (mem_argInsert scores i rest j).mp hmem with h1 | h2
      · exact hij h1.symm
      · exact hn.1 h2
    · simp only [argInsert, h, if_false]
      rw [List.nodup_cons, List.nodup_cons]
      exact ⟨by simp [hij, hirest], hn.1, hn.2⟩

theorem argsortAux_spec (scores : List ℝ) (n : Nat) :
    ((List.range n).foldl (fun l i => argInsert scores i l) []).Pairwise (ordRel scores) ∧
    (∀ k, k ∈ (List.range n).foldl (fun l i => argInsert scores i l) [] ↔ k < n) ∧
    ((List.range n).foldl (fun l i => argInsert scores i l) []).Nodup := by
  induction n with
  | zero => simp
  | succ m ih =>
    rw [List.range_succ, List.foldl_append, List.foldl_cons, List.foldl_nil]
    refine ⟨?_, ?_, ?_⟩
    · exact argInsert_pairwise scores m _ ih.1 (fun j hj => (ih.2.1 j).mp hj)
    · intro k
      rw [mem_argInsert, ih.2.1]
      omega
    · exact argInsert_nodup scores m _ ih.2.2
        (fun hm => by have := (ih.2.1 m).mp hm; omega)

theorem argsort_spec (scores : List ℝ) :
    (argsort scores).Pairwise (ordRel scores) ∧
    (∀ k, k ∈ argsort scores ↔ k < scores.length) ∧
    (argsort scores).Nodup :=
  argsortAux_spec scores scores.length

theorem selectLoop_eq (scores : List ℝ) (chunks : List Chunk) (topK : Nat)
    (threshold : ℝ) :
    ∀ (order : List Nat) (res : List (Chunk × ℝ)),
      selectLoop scores chunks topK threshold order res =
        res ++ ((order.filter (fun i =>
            decide (threshold ≤ scores.getD i 0) && (chunks[i]?).isSome)).take
          (topK - res.length)).map
            (fun i => (chunks.getD i ⟨[], [], [], 0, 0⟩, scores.getD i 0)) := by
  intro order
  induction order with
  | nil => intro res; simp [selectLoop]
  | cons i rest ih =>
    intro res
    by_cases hk : topK ≤ res.length
    · have h0 : topK - res.length = 0 := by omega
      simp only [selectLoop, hk, if_true, h0, List.take_zero, List.map_nil,
        List.append_nil]
    · by_cases hth : threshold ≤ scores.getD i 0
      · cases hci : chunks[i]? with
        | some c =>
          have hpass : (decide (threshold ≤ scores.getD i 0) &&
              (chunks[i]?).isSome) = true := by
            rw [hci, decide_eq_true hth]
            rfl
          have hfc : ((i :: rest).filter (fun i =>
              decide (threshold ≤ scores.getD i 0) && (chunks[i]?).isSome)) =
              i :: (rest.filter (fun i =>
                decide (threshold ≤ scores.getD i 0) && (chunks[i]?).isSome)) :=
            List.filter_cons_of_pos hpass
          simp only [selectLoop, hk, if_false, hth, if_true, hci]
          rw [ih (res ++ [(c, scores.getD i 0)])]
          have hc2 : chunks.getD i ⟨[], [], [], 0, 0⟩ = c := by
            rw [List.getD_eq_getElem?_getD, hci]
            rfl
          have htake : topK - res.length =
              (topK - (res ++ [(c, scores.getD i 0)]).length) + 1 := by
            rw [List.length_append]
            simp only [List.length_cons, List.length_nil]
            omega
          rw [hfc, htake, List.take_succ_cons, List.map_cons, hc2,
            List.append_assoc, List.singleton_append]
        | none =>
          have hfail : ¬ ((decide (threshold ≤ scores.getD i 0) &&
              (chunks[i]?).isSome) = true) := by
            rw [hci]
            simp
          have hfc : ((i :: rest).filter (fun i =>
              decide (threshold ≤ scores.getD i 0) && (chunks[i]?).isSome)) =
              rest.filter (fun i =>
                decide (threshold ≤ scores.getD i 0) && (chunks[i]?).isSome) :=
            List.filter_cons_of_neg hfail
          simp only [selectLoop, hk, if_false, hth, if_true, hci]
          rw [ih res, hfc]
      · have hfail : ¬ ((decide (threshold ≤ scores.getD i 0) &&
            (chunks[i]?).isSome) = true) := by
          simp only [Bool.and_eq_true, decide_eq_true_eq]
          intro hcon
          exact hth hcon.1
        have hfc : ((i :: rest).filter (fun i =>
            decide (threshold ≤ scores.getD i 0) && (chunks[i]?).isSome)) =
            rest.filter (fun i =>
              decide (threshold ≤ scores.getD i 0) && (chunks[i]?).isSome) :=
          List.filter_cons_of_neg hfail
        simp only [selectLoop, hk, if_false, hth]
        rw [ih res, hfc]

theorem clampedDenom_ne_zero (q r : List ℚ) : clampedDenom q r ≠ 0 := by
  unfold clampedDenom
  by_cases h : normVal q * normVal r = 0
  · simp only [h, if_true]
    norm_num
  · simp only [h, if_false]
    exact h

/-- C5 amended: over a non-empty index, `search_chunks` scores every
stored row by the clamped-cosine formula (dot product over the product of
norms, a zero denominator replaced by `1e-12`, so no division by zero),
and its result loop — run on any argsort order, i.e. any permutation of
the score positions sorted by descending score, which covers every tie
order numpy's unstable default quicksort may produce — selects positions
with score at or above `threshold`, returns at most `topK` results, pairs
every selected position with the chunk stored at that same position, and
keeps the scores in non-increasing order. The relative order of equal
scores is NOT guaranteed: `np.argsort`'s reversed output fixes no stable
tie-break (at the counterexample input it is descending-index, refuting
the claimed ascending order). The model's `search_chunks` runs the loop
on one such order: its reversed argsort ranges over exactly the score
positions and is sorted by non-increasing score. -/
theorem search_postconditions (q : List ℚ) (embs : List (List ℚ)) (chunks : List Chunk)
    (topK : Nat) (threshold : ℝ) (hne : embs ≠ []) (hcne : chunks ≠ []) :
    (∀ order : List Nat,
      (∀ i ∈ order, i < (cosine_similarity q embs).length) →
      order.Pairwise (fun i j => (cosine_similarity q embs).getD j 0 ≤
        (cosine_similarity q embs).getD i 0) →
      ∃ sel : List Nat,
        selectLoop (cosine_similarity q embs) chunks topK threshold order [] =
          sel.map (fun i => (chunks.getD i ⟨[], [], [], 0, 0⟩,
            (cosine_similarity q embs).getD i 0)) ∧
        sel.length ≤ topK ∧
        (∀ i ∈ sel, i < chunks.length ∧ i < embs.length ∧
          threshold ≤ (cosine_similarity q embs).getD i 0) ∧
        sel.Pairwise (fun i j => (cosine_similarity q embs).getD j 0 ≤
          (cosine_similarity q embs).getD i 0)) ∧
    search_chunks q embs chunks topK threshold =
      selectLoop (cosine_similarity q embs) chunks topK threshold
        (argsort (cosine_similarity q embs)).reverse [] ∧
    (∀ i ∈ (argsort (cosine_similarity q embs)).reverse,
      i < (cosine_similarity q embs).length) ∧
    (argsort (cosine_similarity q embs)).reverse.Pairwise
      (fun i j => (cosine_similarity q embs).getD j 0 ≤
        (cosine_similarity q embs).getD i 0) ∧
    (∀ i : Nat, i < embs.length →
      (cosine_similarity q embs).getD i 0 =
        ((dotQ (embs.getD i []) q : ℚ) : ℝ) / clampedDenom q (embs.getD i []) ∧
      clampedDenom q (embs.getD i []) ≠ 0) := by
  refine ⟨?_, ?_, ?_, ?_, ?_⟩
  · intro order hmem hsorted
    refine ⟨(order.filter (fun i =>
        decide (threshold ≤ (cosine_similarity q embs).getD i 0) &&
          (chunks[i]?).isSome)).take topK, ?_, ?_, ?_, ?_⟩
    · rw [selectLoop_eq]
      simp only [List.nil_append, List.length_nil, Nat.sub_zero]
    · rw [List.length_take]
      exact Nat.min_le_left _ _
    · intro i hi
      have hif := (List.take_sublist _ _).mem hi
      rw [List.mem_filter] at hif
      have hpred := hif.2
      rw [Bool.and_eq_true, decide_eq_true_eq] at hpred
      have hic : i < chunks.length := by
        have hs := hpred.2
        by_contra hcontra
        push_neg at hcontra
        rw [List.getElem?_eq_none hcontra] at hs
        simp at hs
      have hie : i < embs.length := by
        have hlt := hmem i hif.1
        rwa [cosine_similarity, List.length_map] at hlt
      exact ⟨hic, hie, hpred.1⟩
    · exact hsorted.sublist ((List.take_sublist _ _).trans (List.filter_sublist _))
  · obtain ⟨e, es, rfl⟩ : ∃ e es, embs = e :: es := by
      cases embs with
      | nil => exact absurd rfl hne
      | cons e es => exact ⟨e, es, rfl⟩
    obtain ⟨c, cst, rfl⟩ : ∃ c cst, chunks = c :: cst := by
      cases chunks with
      | nil => exact absurd rfl hcne
      | cons c cst => exact ⟨c, cst, rfl⟩
    rw [search_chunks]
    rfl
  · intro i hi
    exact ((argsort_spec (cosine_similarity q embs)).2.1 i).mp (List.mem_reverse.mp hi)
  · have hrev : (argsort (cosine_similarity q embs)).reverse.Pairwise
        (flip (ordRel (cosine_similarity q embs))) :=
      List.pairwise_reverse.mpr (argsort_spec (cosine_similarity q embs)).1
    refine hrev.imp ?_
    intro a b h
    rcases h with h1 | h2
    · exact le_of_lt h1
    · exact le_of_eq h2.1
  · intro i hi
    have hsc : (cosine_similarity q embs).getD i 0 =
        cosineRow q (embs.getD i []) := by
      rw [List.getD_eq_getElem?_getD, cosine_similarity, List.getElem?_map,
        List.getElem?_eq_getElem hi]
      show cosineRow q embs[i] = cosineRow q (embs.getD i [])
      congr 1
      rw [List.getD_eq_getElem?_getD, List.getElem?_eq_getElem hi]
      rfl
    exact ⟨hsc, clampedDenom_ne_zero q (embs.getD i [])⟩

/-- C5 counterexample: two identical stored embeddings score identically
against the query, and `search_chunks` returns the chunk at index 1
before the chunk at index 0 — `np.argsort(scores)[::-1]` reverses the
stable ascending order, so equal scores come out in descending index
order, refuting the claimed ascending (stable) tie-break. -/
theorem search_tie_order_cex :
    search_chunks [(1 : ℚ)] [[(1 : ℚ)], [(1 : ℚ)]]
        [⟨['a'], ['a'], ['a'], 0, 1⟩, ⟨['b'], ['b'], ['b'], 1, 1⟩] 2 0 =
      [(⟨['b'], ['b'], ['b'], 1, 1⟩, 1), (⟨['a'], ['a'], ['a'], 0, 1⟩, 1)] ∧
    (⟨['a'], ['a'], ['a'], 0, 1⟩ : Chunk) ≠ ⟨['b'], ['b'], ['b'], 1, 1⟩ := by
  have hsq : sumSq [(1 : ℚ)] = 1 := by norm_num [sumSq]
  have hdot : dotQ [(1 : ℚ)] [(1 : ℚ)] = 1 := by norm_num [dotQ]
  have hd : clampedDenom [(1 : ℚ)] [(1 : ℚ)] = 1 := by
    unfold clampedDenom normVal
    rw [hsq]
    norm_num
  have hrow : cosineRow [(1 : ℚ)] [(1 : ℚ)] = 1 := by
    unfold cosineRow
    rw [hd, hdot]
    norm_num
  have hsc : cosine_similarity [(1 : ℚ)] [[(1 : ℚ)], [(1 : ℚ)]] = ([1, 1] : List ℝ) := by
    show [cosineRow [(1 : ℚ)] [(1 : ℚ)], cosineRow [(1 : ℚ)] [(1 : ℚ)]] = [1, 1]
    rw [hrow]
  have hA1 : argInsert ([1, 1] : List ℝ) 1 [0] = [0, 1] := by
    show (if ([1, 1] : List ℝ).getD 0 0 ≤ ([1, 1] : List ℝ).getD 1 0
        then 0 :: argInsert ([1, 1] : List ℝ) 1 []
        else 1 :: 0 :: []) = [0, 1]
    rw [if_pos (by rw [show ([1, 1] : List ℝ).getD 0 0 = 1 from rfl,
      show ([1, 1] : List ℝ).getD 1 0 = 1 from rfl])]
    rfl
  have hargsort : argsort ([1, 1] : List ℝ) = [0, 1] := by
    show (List.range 2).foldl (fun l i => argInsert ([1, 1] : List ℝ) i l) [] = [0, 1]
    rw [show List.range 2 = [0, 1] from rfl]
    simp only [List.foldl_cons, List.foldl_nil]
    rw [show argInsert ([1, 1] : List ℝ) 0 [] = [0] from rfl, hA1]
  constructor
  · have hopen : search_chunks [(1 : ℚ)] [[(1 : ℚ)], [(1 : ℚ)]]
        [⟨['a'], ['a'], ['a'], 0, 1⟩, ⟨['b'], ['b'], ['b'], 1, 1⟩] 2 0 =
        selectLoop (cosine_similarity [(1 : ℚ)] [[(1 : ℚ)], [(1 : ℚ)]])
          [⟨['a'], ['a'], ['a'], 0, 1⟩, ⟨['b'], ['b'], ['b'], 1, 1⟩] 2 0
          (argsort (cosine_similarity [(1 : ℚ)] [[(1 : ℚ)], [(1 : ℚ)]])).reverse [] := by
      rw [search_chunks]
      rfl
    rw [hopen, hsc, hargsort]
    rw [show ([0, 1] : List Nat).reverse = [1, 0] from rfl]
    rw [selectLoop_eq]
    have hp1 : (fun i => decide ((0 : ℝ) ≤ ([1, 1] : List ℝ).getD i 0) &&
        (([⟨['a'], ['a'], ['a'], 0, 1⟩, ⟨['b'], ['b'], ['b'], 1, 1⟩] :
          List Chunk)[i]?).isSome) 1 = true := by
      show (decide ((0 : ℝ) ≤ ([1, 1] : List ℝ).getD 1 0) &&
        (([⟨['a'], ['a'], ['a'], 0, 1⟩, ⟨['b'], ['b'], ['b'], 1, 1⟩] :
          List Chunk)[1]?).isSome) = true
      rw [show ([1, 1] : List ℝ).getD 1 0 = 1 from rfl,
        decide_eq_true (by norm_num : (0 : ℝ) ≤ 1)]
      rfl
    have hp0 : (fun i => decide ((0 : ℝ) ≤ ([1, 1] : List ℝ).getD i 0) &&
        (([⟨['a'], ['a'], ['a'], 0, 1⟩, ⟨['b'], ['b'], ['b'], 1, 1⟩] :
          List Chunk)[i]?).isSome) 0 = true := by
      show (decide ((0 : ℝ) ≤ ([1, 1] : List ℝ).getD 0 0) &&
        (([⟨['a'], ['a'], ['a'], 0, 1⟩, ⟨['b'], ['b'], ['b'], 1, 1⟩] :
          List Chunk)[0]?).isSome) = true
      rw [show ([1, 1] : List ℝ).getD 0 0 = 1 from rfl,
        decide_eq_true (by norm_num : (0 : ℝ) ≤ 1)]
      rfl
    rw [@List.filter_cons_of_pos _
        (fun i => decide ((0 : ℝ) ≤ ([1, 1] : List ℝ).getD i 0) &&
          (([⟨['a'], ['a'], ['a'], 0, 1⟩, ⟨['b'], ['b'], ['b'], 1, 1⟩] :
            List Chunk)[i]?).isSome) 1 [0] hp1,
      @List.filter_cons_of_pos _
        (fun i => decide ((0 : ℝ) ≤ ([1, 1] : List ℝ).getD i 0) &&
          (([⟨['a'], ['a'], ['a'], 0, 1⟩, ⟨['b'], ['b'], ['b'], 1, 1⟩] :
            List Chunk)[i]?).isSome) 0 [] hp0,
      List.filter_nil]
    rfl
  · intro h
    exact absurd (congrArg Chunk.chunk_index h) (by decide)

/-- Witness for the amended search theorem at a one-row index, with the
generic part instantiated at the order `[0]`. -/
theorem search_postconditions_witness :
    (([[(1 : ℚ)]] : List (List ℚ)) ≠ []) ∧
    (([⟨['a'], ['a'], ['a'], 0, 1⟩] : List Chunk) ≠ []) ∧
    (∀ i ∈ ([0] : List Nat), i < (cosine_similarity [(1 : ℚ)] [[(1 : ℚ)]]).length) ∧
    ([0] : List Nat).Pairwise (fun i j =>
      (cosine_similarity [(1 : ℚ)] [[(1 : ℚ)]]).getD j 0 ≤
        (cosine_similarity [(1 : ℚ)] [[(1 : ℚ)]]).getD i 0) ∧
    ∃ sel : List Nat,
      selectLoop (cosine_similarity [(1 : ℚ)] [[(1 : ℚ)]])
          [⟨['a'], ['a'], ['a'], 0, 1⟩] 1 0 [0] [] =
        sel.map (fun i => (([⟨['a'], ['a'], ['a'], 0, 1⟩] : List Chunk).getD i
          ⟨[], [], [], 0, 0⟩,
          (cosine_similarity [(1 : ℚ)] [[(1 : ℚ)]]).getD i 0)) ∧
      sel.length ≤ 1 ∧
      (∀ i ∈ sel, i < ([⟨['a'], ['a'], ['a'], 0, 1⟩] : List Chunk).length ∧
        i < ([[(1 : ℚ)]] : List (List ℚ)).length ∧
        (0 : ℝ) ≤ (cosine_similarity [(1 : ℚ)] [[(1 : ℚ)]]).getD i 0) ∧
      sel.Pairwise (fun i j =>
        (cosine_similarity [(1 : ℚ)] [[(1 : ℚ)]]).getD j 0 ≤
          (cosine_similarity [(1 : ℚ)] [[(1 : ℚ)]]).getD i 0) := by
  have hmem : ∀ i ∈ ([0] : List Nat),
      i < (cosine_similarity [(1 : ℚ)] [[(1 : ℚ)]]).length := by
    intro i hi
    rw [List.mem_singleton] at hi
    subst hi
    rw [cosine_similarity, List.length_map]
    simp
  have hsorted : ([0] : List Nat).Pairwise (fun i j =>
      (cosine_similarity [(1 : ℚ)] [[(1 : ℚ)]]).getD j 0 ≤
        (cosine_similarity [(1 : ℚ)] [[(1 : ℚ)]]).getD i 0) := by
    simp
  exact ⟨by simp, by simp, hmem, hsorted,
    (search_postconditions [(1 : ℚ)] [[(1 : ℚ)]] [⟨['a'], ['a'], ['a'], 0, 1⟩] 1 0
      (by simp) (by simp)).1 [0] hmem hsorted⟩

/-! ## Witnesses for the remaining claim theorems -/

/-- Witness for the lock-manager theorem: a held lock of age 10 within a
timeout of 100 raises, and release leaves no record. -/
theorem lock_manager_semantics_witness :
    (∃ e, acquire_lock (some ⟨0, ['u'], 1, ['h']⟩) 10 ⟨['v'], 2, ['g']⟩ 100 =
      Except.error e) ∧
    release_lock (some ⟨0, ['u'], 1, ['h']⟩) = none := by
  refine ⟨?_, ?_⟩
  · exact (lock_manager_semantics (some ⟨0, ['u'], 1, ['h']⟩) 10
      ⟨['v'], 2, ['g']⟩ 100).1.mpr ⟨⟨0, ['u'], 1, ['h']⟩, rfl, by norm_num⟩
  · exact (lock_manager_semantics (some ⟨0, ['u'], 1, ['h']⟩) 10
      ⟨['v'], 2, ['g']⟩ 100).2.2.1

/-- Witness for the change-detection theorem: a page absent from the
previous state is classified as changed. -/
theorem change_detection_witness :
    ((⟨['B'], some 2, some 0, []⟩ : FPage) ∈ [(⟨['B'], some 2, some 0, []⟩ : FPage)]) ∧
    ((⟨['B'], some 2, some 0, []⟩ : FPage) ∈
      (detect false ([(['A'], ⟨some 1, some 0⟩)] : StateDict) [⟨['B'], some 2, some 0, []⟩]).2 ↔
      (false = true ∨ dictGet ([(['A'], ⟨some 1, some 0⟩)] : StateDict) ['B'] = none ∨
        ∃ e, dictGet ([(['A'], ⟨some 1, some 0⟩)] : StateDict) ['B'] = some e ∧
          e.revid ≠ some 2)) := by
  refine ⟨List.mem_singleton.mpr rfl, ?_⟩
  exact (change_detection false ([(['A'], ⟨some 1, some 0⟩)] : StateDict)
    [⟨['B'], some 2, some 0, []⟩]).1 _ (List.mem_singleton.mpr rfl)

/-- Witness for the merge theorem: a chunk of a page present in both
states and not among the changed pages passes the carry-over filter. -/
theorem merge_carry_over_witness :
    (mkChunk ['A'] 0 ['a'] ∈ [mkChunk ['A'] 0 ['a']]) ∧
    (mkChunk ['A'] 0 ['a'] ∈
      [mkChunk ['A'] 0 ['a']].filter (carriedOver ([(['A'], ⟨some 1, some 0⟩)] : StateDict)
        ([(['A'], ⟨some 1, some 0⟩)] : StateDict) (([] : List FPage).map (fun p => p.title))) ↔
      ((dictGet ([(['A'], ⟨some 1, some 0⟩)] : StateDict) (mkChunk ['A'] 0 ['a']).page_title).isSome ∧
        (dictGet ([(['A'], ⟨some 1, some 0⟩)] : StateDict) (mkChunk ['A'] 0 ['a']).page_title).isSome ∧
        (mkChunk ['A'] 0 ['a']).page_title ∉ ([] : List FPage).map (fun p => p.title))) := by
  refine ⟨List.mem_singleton.mpr rfl, ?_⟩
  exact (merge_carry_over_and_order ([(['A'], ⟨some 1, some 0⟩)] : StateDict)
    ([(['A'], ⟨some 1, some 0⟩)] : StateDict) [mkChunk ['A'] 0 ['a']] [] 10 5).2
    _ (List.mem_singleton.mpr rfl)

/-- Witness for the staging-integrity theorem: with every artifact
present the build proceeds to the swap. -/
theorem staging_write_integrity_witness :
    proceedsToSwap (fun _ => true) (fun _ => 0) = true :=
  ((staging_write_integrity_amended (fun _ => true)
    (fun _ => 0)).2.2.2.2.2.2).mpr (fun _ _ => rfl)

/-- Witness for the chunker postconditions at a whitespace-only page. -/
theorem chunker_postconditions_witness :
    stripList "  ".data = [] ∧ chunk_text ⟨['T'], "  ".data⟩ 5 1 = [] := by
  refine ⟨by decide, ?_⟩
  exact (chunker_postconditions ⟨['T'], "  ".data⟩ 5 1).2.2 (by decide)

end MediaWikiRag
